import Mathlib

/-!
Verification of the columnar data-grid engine of `src/src/App.tsx`.

The repository's single source file contains two concatenated revisions of
the same React component.  This development embeds the later revision
(lines 383-866), the one with categorical dictionary encoding, which is the
revision the specification describes and whose line ranges the claims cite:
`convertToColumnar` (lines 442-567) and `inferType` (lines 572-610).

Modelling conventions:
* JavaScript numbers are modelled as exact rationals (`ℚ`); IEEE NaN is a
  separate input constructor because the code normalizes it to null before
  any arithmetic.  The claims under study concern the algorithm (counts,
  comparisons, exact accumulation), not float rounding.
* JavaScript objects (`data`, `stats`, `categories`, `uniqueValues`) are
  modelled as functions `String → Option _`; the one place where key order is
  observable in the result (`columns`) is kept as a list.  The final
  per-column encoding loop touches each column independently, so it is
  expressed pointwise.
* The cardinality test `size >= Math.log(rowCount)` compares a natural
  number with a real.  For a natural `size`, it holds iff
  `Nat.ceil (Real.log rowCount) ≤ size`, so the converter takes the natural
  threshold as a parameter `thr`, and theorems about the threshold carry the
  hypothesis `thr = Nat.ceil (Real.log rows.length)`.
* `Int8Array` element writes go through `toInt8`; a `Map.get` miss
  (`undefined`) stored into an `Int8Array` yields `0`, which the encoder
  model reproduces.
* The `frequencyCounts` map of a category encoding is omitted from the
  embedding: no claim mentions it, and on the buggy mixed-column path its
  entries become NaN, which has no rational counterpart.
-/

namespace SmartGrid

/-- Raw cell value of an input record: a JavaScript scalar.  `nan` is the
IEEE not-a-number value (a `number` in JavaScript); `null` stands for both
`null` and `undefined`, which the code folds together via `value ?? null`. -/
inductive JSVal where
  | num (q : ℚ)
  | nan
  | bool (b : Bool)
  | str (s : String)
  | null
deriving DecidableEq, Repr

/-- Normalized cell value after `let val = value ?? null` and the
`typeof val === 'number' && isNaN(val)` check (lines 462-465): NaN becomes
null, everything else is kept. -/
inductive Value where
  | num (q : ℚ)
  | bool (b : Bool)
  | str (s : String)
  | null
deriving DecidableEq, Repr

/-- Normalization of lines 462-465. -/
def normalize : JSVal → Value
  | .num q => .num q
  | .nan => .null
  | .bool b => .bool b
  | .str s => .str s
  | .null => .null

/-- `typeof val === 'string' || typeof val === 'boolean'` (line 478). -/
def isTrackable : Value → Bool
  | .bool _ => true
  | .str _ => true
  | _ => false

/-- A record: the entry list of a JavaScript object, in insertion order.
JavaScript objects have no duplicate keys; theorems that depend on that
carry it as a hypothesis. -/
abbrev Row : Type := List (String × JSVal)

/-- Per-column running statistics (interface `ColumnStats`, lines 394-400). -/
structure ColumnStats where
  statMin : ℚ
  statMax : ℚ
  mean : ℚ
  sum : ℚ
  count : ℕ
deriving DecidableEq, Repr

/-- State of `uniqueValues[col]` (line 458): `undef` is an absent key,
`nullAb` is the null sentinel meaning tracking was abandoned, `tracked vals`
is the `Set` of distinct values in insertion order. -/
inductive Track where
  | undef
  | nullAb
  | tracked (vals : List Value)
deriving DecidableEq, Repr

/-- Mutable state of the scan loop of lines 448-510. -/
structure ScanState where
  columns : List String
  data : String → Option (List Value)
  stats : String → Option ColumnStats
  uniq : String → Track

/-- Point update of an object modelled as a function. -/
def upd {α : Type} (m : String → α) (k : String) (v : α) : String → α :=
  fun k2 => if k2 = k then v else m k2

/-- Processing of one `(col, value)` entry of row `i` (lines 461-509):
normalization, column registration with a null-filled preallocated array,
cell write, distinct-value tracking with abandonment at the threshold, and
the statistics update for numeric values. -/
def stepEntry (rowCount thr i : ℕ) (st : ScanState) (e : String × JSVal) : ScanState :=
  let col := e.1
  let v := normalize e.2
  let cols := if col ∈ st.columns then st.columns else st.columns ++ [col]
  let d0 := if col ∈ st.columns then st.data
            else upd st.data col (some (List.replicate rowCount Value.null))
  let d1 := upd d0 col (some (((d0 col).getD []).set i v))
  let u :=
    if isTrackable v then
      match st.uniq col with
      | .nullAb => st.uniq
      | .undef => upd st.uniq col (if thr ≤ 1 then .nullAb else .tracked [v])
      | .tracked vs =>
          let vs2 := if v ∈ vs then vs else vs ++ [v]
          upd st.uniq col (if thr ≤ vs2.length then .nullAb else .tracked vs2)
    else st.uniq
  let s :=
    match v with
    | .num q =>
        match st.stats col with
        | none => upd st.stats col (some { statMin := q, statMax := q, mean := 0, sum := q, count := 1 })
        | some s0 => upd st.stats col (some { statMin := min s0.statMin q, statMax := max s0.statMax q,
                                              mean := s0.mean, sum := s0.sum + q, count := s0.count + 1 })
    | _ => st.stats
  { columns := cols, data := d1, stats := s, uniq := u }

/-- Initial scan state: empty object literals of lines 448-458. -/
def initState : ScanState :=
  { columns := [], data := fun _ => none, stats := fun _ => none, uniq := fun _ => .undef }

/-- The `rows.forEach((row, i) => Object.entries(row).forEach(...))` loop of
lines 460-510. -/
def scanRows (thr : ℕ) (rows : List Row) : ScanState :=
  rows.enum.foldl (fun st p => p.2.foldl (stepEntry rows.length thr p.1) st) initState

/-- Mean finalization of lines 513-515. -/
def finalizeStats (m : String → Option ColumnStats) : String → Option ColumnStats :=
  fun c => (m c).map fun s => { s with mean := s.sum / (s.count : ℚ) }

/-- JavaScript `String(v)` for the values the sort comparator can receive.
Dictionaries contain only tracked (boolean or text) values, so the rendering
of numbers and null is never exercised by the embedded code. -/
def render : Value → String
  | .num q => toString q
  | .bool true => "true"
  | .bool false => "false"
  | .str s => s
  | .null => "null"

/-- Lexicographic code-point comparison of character lists: `true` iff the
first list is less than or equal to the second. -/
def charListLe : List Char → List Char → Bool
  | [], _ => true
  | _ :: _, [] => false
  | a :: as, b :: bs =>
      if a.toNat < b.toNat then true
      else if b.toNat < a.toNat then false
      else charListLe as bs

/-- String comparison `s.localeCompare(t) <= 0`, modelled as code-point
lexicographic order (the default collation coincides with it on the
lowercase ASCII strings exercised here). -/
def strLeB (s t : String) : Bool := charListLe s.toList t.toList

/-- Sort comparator of lines 524-529, as a weak order: `cmpLeB a b` holds iff
the comparator returns a non-positive number on `(a, b)`.  Two booleans use
the dedicated branch (true before false); every other pair falls through to
`String(a).localeCompare(String(b))`. -/
def cmpLeB (a b : Value) : Bool :=
  match a, b with
  | .bool x, .bool y => x || !y
  | _, _ => strLeB (render a) (render b)

/-- Propositional form of the comparator order. -/
def leVal (a b : Value) : Prop := cmpLeB a b = true

instance : DecidableRel leVal :=
  fun a b => inferInstanceAs (Decidable (cmpLeB a b = true))

/-- The dictionary sort `Array.from(uniqueSet).sort(comparator)` (line 524),
modelled as a stable insertion sort with the embedded comparator. -/
def sortVals (l : List Value) : List Value := List.insertionSort leVal l

/-- Truncation performed by an `Int8Array` element write. -/
def toInt8 (n : ℤ) : ℤ := (n + 128) % 256 - 128

/-- Dictionary encoding of one categorical column (interface
`CategoryEncoding`, lines 402-406, minus the frequency counts, which no
claim mentions). -/
structure CategoryEncoding where
  dictionary : List Value
  encoded : List ℤ
deriving DecidableEq, Repr

/-- Position of `v` in the `valueToIndex` map built on line 531. -/
def idxIn (dict : List Value) (v : Value) : Option ℕ :=
  dict.findIdx? (fun w => w == v)

/-- Encoding loop of lines 523-548 for one column: sort the distinct values,
then for each row store `-1` for null and otherwise the dictionary index of
the raw value through an `Int8Array` write; a `valueToIndex.get` miss yields
`undefined`, which the `Int8Array` stores as `0`. -/
def encodeColumn (rowCount : ℕ) (colData : List Value) (vals : List Value) : CategoryEncoding :=
  let dictionary := sortVals vals
  let encoded := (List.range rowCount).map fun i =>
    let v := colData.getD i Value.null
    if v = Value.null then (-1 : ℤ)
    else
      match idxIn dictionary v with
      | some k => toInt8 (k : ℤ)
      | none => 0
  { dictionary := dictionary, encoded := encoded }

/-- Result record of `convertToColumnar` (interface `ColumnarResult`,
lines 408-414). -/
structure ColumnarResult where
  columns : List String
  data : String → Option (List Value)
  rowCount : ℕ
  stats : String → Option ColumnStats
  categories : String → Option CategoryEncoding

/-- The converter of lines 442-567.  `thr` embeds the real threshold
`Math.log(rowCount)`: the tracked-set size is a natural number, so the
source test `size >= Math.log(rowCount)` holds iff
`Nat.ceil (Real.log rowCount) ≤ size`; theorems about threshold behaviour
take `thr = Nat.ceil (Real.log rows.length)`.  After the scan, each column
with a live tracked set is dictionary-encoded and its raw array is deleted
(lines 519-558). -/
def convertToColumnar (thr : ℕ) (rows : List Row) : ColumnarResult :=
  if rows.length = 0 then
    { columns := [], data := fun _ => none, rowCount := 0,
      stats := fun _ => none, categories := fun _ => none }
  else
    let st := scanRows thr rows
    { columns := st.columns,
      data := fun c =>
        match st.uniq c with
        | .tracked _ => none
        | _ => st.data c,
      rowCount := rows.length,
      stats := finalizeStats st.stats,
      categories := fun c =>
        match st.uniq c with
        | .tracked vals => some (encodeColumn rows.length ((st.data c).getD []) vals)
        | _ => none }

/-- Inferred column type (line 416). -/
inductive DataType where
  | number
  | boolean
  | date
  | string
deriving DecidableEq, Repr

/-- Regex `^\d{4}-\d{2}-\d{2}$` of line 589. -/
def isoDateShape : List Char → Bool
  | [y1, y2, y3, y4, h1, m1, m2, h2, d1, d2] =>
      y1.isDigit && y2.isDigit && y3.isDigit && y4.isDigit && h1 == '-' &&
      m1.isDigit && m2.isDigit && h2 == '-' && d1.isDigit && d2.isDigit
  | _ => false

/-- Suffix `([+-]\d{2}:\d{2}|Z)?$` of the regex of line 593. -/
def zoneShape : List Char → Bool
  | [] => true
  | ['Z'] => true
  | [sg, a, b, c, d, e] =>
      (sg == '+' || sg == '-') && a.isDigit && b.isDigit && c == ':' && d.isDigit && e.isDigit
  | _ => false

/-- Suffix `(\.\d{3})?([+-]\d{2}:\d{2}|Z)?$` of the regex of line 593. -/
def fracZoneShape : List Char → Bool
  | '.' :: a :: b :: c :: rest => a.isDigit && b.isDigit && c.isDigit && zoneShape rest
  | rest => zoneShape rest

/-- Regex `^\d{4}-\d{2}-\d{2}T\d{2}:\d{2}:\d{2}(\.\d{3})?([+-]\d{2}:\d{2}|Z)?$`
of line 593. -/
def isoDateTimeShape : List Char → Bool
  | y1 :: y2 :: y3 :: y4 :: '-' :: m1 :: m2 :: '-' :: d1 :: d2 :: 'T' ::
      h1 :: h2 :: ':' :: n1 :: n2 :: ':' :: s1 :: s2 :: rest =>
      y1.isDigit && y2.isDigit && y3.isDigit && y4.isDigit &&
      m1.isDigit && m2.isDigit && d1.isDigit && d2.isDigit &&
      h1.isDigit && h2.isDigit && n1.isDigit && n2.isDigit &&
      s1.isDigit && s2.isDigit && fracZoneShape rest
  | _ => false

/-- Regex `^[A-Z][a-z]{2}\s[A-Z][a-z]{2}\s\d{2}\s\d{4}` of line 597
(unanchored at the end: only the first fifteen characters are constrained). -/
def toStringShape : List Char → Bool
  | w1 :: w2 :: w3 :: s1 :: o1 :: o2 :: o3 :: s2 :: d1 :: d2 :: s3 ::
      y1 :: y2 :: y3 :: y4 :: _ =>
      w1.isUpper && w2.isLower && w3.isLower && s1.isWhitespace &&
      o1.isUpper && o2.isLower && o3.isLower && s2.isWhitespace &&
      d1.isDigit && d2.isDigit && s3.isWhitespace &&
      y1.isDigit && y2.isDigit && y3.isDigit && y4.isDigit
  | _ => false

/-- Regex `^\d{10,13}$` of line 600. -/
def epochDigitsShape (cs : List Char) : Bool :=
  cs.all Char.isDigit && decide (10 ≤ cs.length) && decide (cs.length ≤ 13)

/-- Decimal value of a digit string (`parseInt` on a `^\d+$` match, line 601). -/
def digitsToNat (cs : List Char) : ℕ :=
  cs.foldl (fun acc c => 10 * acc + (c.toNat - 48)) 0

/-- Slash-delimited calendar date `M/D/YYYY` with one- or two-digit month and
day, the family of the claim example `01/15/2024`. -/
def slashDateShape : List Char → Bool
  | [a, b, s1, c, d, s2, e, f, g, h] =>
      a.isDigit && b.isDigit && s1 == '/' && c.isDigit && d.isDigit && s2 == '/' &&
      e.isDigit && f.isDigit && g.isDigit && h.isDigit
  | [a, b, c, d, s2, e, f, g, h] =>
      ((a.isDigit && b == '/' && c.isDigit && d.isDigit) ||
       (a.isDigit && b.isDigit && c == '/' && d.isDigit)) && s2 == '/' &&
      e.isDigit && f.isDigit && g.isDigit && h.isDigit
  | [a, s1, c, s2, e, f, g, h] =>
      a.isDigit && s1 == '/' && c.isDigit && s2 == '/' &&
      e.isDigit && f.isDigit && g.isDigit && h.isDigit
  | _ => false

/-- The twelve English month abbreviations. -/
def monthAbbrs : List (List Char) :=
  [['J','a','n'], ['F','e','b'], ['M','a','r'], ['A','p','r'], ['M','a','y'], ['J','u','n'],
   ['J','u','l'], ['A','u','g'], ['S','e','p'], ['O','c','t'], ['N','o','v'], ['D','e','c']]

/-- Day-month-abbreviation-year date `D-Mon-YYYY` with one- or two-digit day,
the family of the claim example `15-Jan-2024`. -/
def dMonYShape : List Char → Bool
  | [a, b, s1, c1, c2, c3, s2, y1, y2, y3, y4] =>
      a.isDigit && b.isDigit && s1 == '-' && monthAbbrs.contains [c1, c2, c3] && s2 == '-' &&
      y1.isDigit && y2.isDigit && y3.isDigit && y4.isDigit
  | [a, s1, c1, c2, c3, s2, y1, y2, y3, y4] =>
      a.isDigit && s1 == '-' && monthAbbrs.contains [c1, c2, c3] && s2 == '-' &&
      y1.isDigit && y2.isDigit && y3.isDigit && y4.isDigit
  | _ => false

/-- ISO calendar date with plausible month and day components. -/
def validIsoDate : List Char → Bool
  | [y1, y2, y3, y4, h1, m1, m2, h2, d1, d2] =>
      isoDateShape [y1, y2, y3, y4, h1, m1, m2, h2, d1, d2] &&
      (let m := digitsToNat [m1, m2]
       let d := digitsToNat [d1, d2]
       decide (1 ≤ m) && decide (m ≤ 12) && decide (1 ≤ d) && decide (d ≤ 31))
  | _ => false

/-- ISO date-time with plausible date and time-of-day components. -/
def validIsoDateTime : List Char → Bool
  | y1 :: y2 :: y3 :: y4 :: g1 :: m1 :: m2 :: g2 :: d1 :: d2 :: g3 ::
      h1 :: h2 :: g4 :: n1 :: n2 :: g5 :: s1 :: s2 :: rest =>
      isoDateTimeShape (y1 :: y2 :: y3 :: y4 :: g1 :: m1 :: m2 :: g2 :: d1 :: d2 :: g3 ::
        h1 :: h2 :: g4 :: n1 :: n2 :: g5 :: s1 :: s2 :: rest) &&
      (let m := digitsToNat [m1, m2]
       let d := digitsToNat [d1, d2]
       decide (1 ≤ m) && decide (m ≤ 12) && decide (1 ≤ d) && decide (d ≤ 31) &&
       decide (digitsToNat [h1, h2] ≤ 23) && decide (digitsToNat [n1, n2] ≤ 59) &&
       decide (digitsToNat [s1, s2] ≤ 59))
  | _ => false

/-- Slash date with plausible month and day (trailing four digits are the year). -/
def validSlashDate (cs : List Char) : Bool :=
  slashDateShape cs &&
  (let m := digitsToNat (cs.takeWhile (fun c => c != '/'))
   let d := digitsToNat ((cs.dropWhile (fun c => c != '/')).drop 1 |>.takeWhile (fun c => c != '/'))
   decide (1 ≤ m) && decide (m ≤ 12) && decide (1 ≤ d) && decide (d ≤ 31))

/-- Day-month-abbreviation-year date with a plausible day. -/
def validDMonY (cs : List Char) : Bool :=
  dMonYShape cs &&
  (let d := digitsToNat (cs.takeWhile Char.isDigit)
   decide (1 ≤ d) && decide (d ≤ 31))

/-- Modelled from the spec: the host JavaScript engine's date-string parser —
the validity test `!isNaN(new Date(sample).getTime())` at line 587 — which is
not part of the repository.  Per the spec it accepts a string exactly when it
"parses as a valid point in time"; the model accepts the date shapes relevant
to the claims (ISO date, ISO date-time, `Date.prototype.toString` output,
slash-delimited dates, day-month-abbreviation-year dates) with basic
component-range validation.  No claim depends on strings outside these
families being accepted or rejected, because for such strings every pattern
test of lines 589-605 fails and `inferType` returns `string` regardless of
parse validity. -/
def jsDateParses (s : String) : Bool :=
  let cs := s.toList
  validIsoDate cs || validIsoDateTime cs || toStringShape cs || validSlashDate cs || validDMonY cs

/-- The millisecond-epoch plausibility window `946684800000 < x < 4102444800000`
(years 2000 to 2100) of lines 581 and 602. -/
def inEpochWindow (q : ℚ) : Bool :=
  decide ((946684800000 : ℚ) < q) && decide (q < (4102444800000 : ℚ))

/-- Type inference of lines 572-610: take the first non-null value; booleans
are `boolean`; numbers are `date` inside the epoch window and `number`
otherwise; strings are `date` when they parse as a date and match one of the
four patterns, and `string` otherwise; an all-null column is `string`. -/
def inferType (columnData : List Value) : DataType :=
  match columnData.find? (fun v => !(v == Value.null)) with
  | none => .string
  | some (.bool _) => .boolean
  | some (.num q) => if inEpochWindow q then .date else .number
  | some (.str s) =>
      if jsDateParses s &&
         (isoDateShape s.toList || isoDateTimeShape s.toList || toStringShape s.toList ||
          (epochDigitsShape s.toList && inEpochWindow (digitsToNat s.toList : ℚ)))
      then .date else .string
  | some .null => .string

/-!
Spec-side observations of the input.  These are stated directly on the list
of records, independently of the scan state, so that the theorems relate the
converter's output to the input itself.
-/

/-- All `(rowIndex, (field, value))` entries of the input, in processing
order: the flattening of `rows.forEach((row, i) => Object.entries(row))`. -/
def entryStream (rows : List Row) : List (ℕ × (String × JSVal)) :=
  rows.enum.flatMap (fun p => p.2.map (fun e => (p.1, e)))

/-- The normalized values assigned to column `col`, in processing order. -/
def colStream (rows : List Row) (col : String) : List Value :=
  rows.flatMap (fun r => (r.filter (fun e => e.1 == col)).map (fun e => normalize e.2))

/-- The numeric observations of column `col`. -/
def colNums (rows : List Row) (col : String) : List ℚ :=
  (colStream rows col).filterMap (fun v => match v with | .num q => some q | _ => none)

/-- Field names of one record. -/
def rowKeys (r : Row) : List String := r.map Prod.fst

/-- Appends an element unless already present (a `Set.add` step). -/
def insertNew {α : Type} [DecidableEq α] (vs : List α) (v : α) : List α :=
  if v ∈ vs then vs else vs ++ [v]

/-- Distinct elements of a list, keeping first occurrences in order. -/
def dedupFirst {α : Type} [DecidableEq α] (l : List α) : List α :=
  l.foldl insertNew []

/-- The distinct field names of the input, in order of first appearance. -/
def firstKeys (rows : List Row) : List String := dedupFirst (rows.flatMap rowKeys)

/-- The statistics update of lines 493-508 restricted to one column, as a
function of the normalized value. -/
def statValUpd (acc : Option ColumnStats) : Value → Option ColumnStats
  | .num q =>
      match acc with
      | none => some { statMin := q, statMax := q, mean := 0, sum := q, count := 1 }
      | some s0 => some { statMin := min s0.statMin q, statMax := max s0.statMax q,
                          mean := s0.mean, sum := s0.sum + q, count := s0.count + 1 }
  | _ => acc

/-- The distinct-value tracking update of lines 478-490 restricted to one
column, as a function of the normalized value. -/
def trackValUpd (thr : ℕ) (t : Track) (v : Value) : Track :=
  if isTrackable v then
    match t with
    | .nullAb => .nullAb
    | .undef => if thr ≤ 1 then .nullAb else .tracked [v]
    | .tracked vs =>
        let vs2 := insertNew vs v
        if thr ≤ vs2.length then .nullAb else .tracked vs2
  else t

@[simp] theorem upd_same {α : Type} (m : String → α) (k : String) (v : α) :
    upd m k v k = v := by
  simp [upd]

theorem upd_ne {α : Type} (m : String → α) {k k2 : String} (v : α) (h : k2 ≠ k) :
    upd m k v k2 = m k2 := by
  simp [upd, h]

/-- Fold invariant carrying the processed prefix. -/
theorem foldl_prefix_invariant {α β : Type} (f : α → β → α) (P : List β → α → Prop)
    (l : List β) (init : α) (h0 : P [] init)
    (hstep : ∀ pre a st, P pre st → P (pre ++ [a]) (f st a)) :
    P l (l.foldl f init) := by
  have main : ∀ l2 pre st, P pre st →
      (∀ pre2 a st2, P pre2 st2 → P (pre2 ++ [a]) (f st2 a)) →
      P (pre ++ l2) (l2.foldl f st) := by
    intro l2
    induction l2 with
    | nil => intro pre st h _; simpa using h
    | cons a t ih =>
        intro pre st h hs
        have h2 := hs pre a st h
        have := ih (pre ++ [a]) (f st a) h2 hs
        simpa using this
  simpa using main l [] init h0 hstep


/-- Normalized values assigned to `col` by a prefix of the entry stream. -/
def valsOf (pre : List (ℕ × (String × JSVal))) (col : String) : List Value :=
  pre.filterMap (fun p => if p.2.1 = col then some (normalize p.2.2) else none)

/-- Field names of a prefix of the entry stream, in processing order. -/
def keysOf (pre : List (ℕ × (String × JSVal))) : List String :=
  pre.map (fun p => p.2.1)

theorem foldl_flatMap {α β γ : Type} (f : β → List γ) (g : α → γ → α) (l : List β) (init : α) :
    (l.flatMap f).foldl g init = l.foldl (fun st b => (f b).foldl g st) init := by
  induction l generalizing init with
  | nil => rfl
  | cons b t ih => simp [List.flatMap_cons, List.foldl_append, ih]

/-- The nested scan loop is a fold of `stepEntry` over the entry stream. -/
theorem scanRows_eq_stream (thr : ℕ) (rows : List Row) :
    scanRows thr rows =
      (entryStream rows).foldl (fun st p => stepEntry rows.length thr p.1 st p.2) initState := by
  unfold scanRows entryStream
  rw [foldl_flatMap]
  congr 1
  funext st p
  rw [List.foldl_map]

theorem filterMap_row (col : String) (r : Row) :
    r.filterMap (fun e => if e.1 = col then some (normalize e.2) else none) =
      (r.filter (fun e => e.1 == col)).map (fun e => normalize e.2) := by
  induction r with
  | nil => rfl
  | cons e t ih =>
      by_cases h : e.1 = col <;>
        simp [List.filterMap_cons, List.filter_cons, h, ih]

theorem valsOf_entryStream (rows : List Row) (col : String) :
    valsOf (entryStream rows) col = colStream rows col := by
  unfold valsOf entryStream colStream
  rw [List.flatMap_def, List.flatMap_def]
  induction rows using List.reverseRecOn with
  | nil => rfl
  | append_singleton t r ih =>
      rw [List.enum_append]
      simp only [List.map_append, List.flatten_append, List.filterMap_append, ih]
      simp only [List.enumFrom_cons, List.enumFrom_nil, List.map_cons, List.map_nil,
        List.flatten_cons, List.flatten_nil, List.append_nil, List.filterMap_map]
      rw [show ((fun p : ℕ × (String × JSVal) =>
            if p.2.1 = col then some (normalize p.2.2) else none) ∘
            fun e : String × JSVal => (t.length, e)) =
          (fun e : String × JSVal => if e.1 = col then some (normalize e.2) else none) from rfl]
      rw [filterMap_row]

theorem keysOf_entryStream (rows : List Row) :
    keysOf (entryStream rows) = rows.flatMap rowKeys := by
  unfold keysOf entryStream
  rw [List.flatMap_def, List.flatMap_def]
  induction rows using List.reverseRecOn with
  | nil => rfl
  | append_singleton t r ih =>
      rw [List.enum_append]
      simp only [List.map_append, List.flatten_append, ih]
      simp [rowKeys, Function.comp]

theorem dedupFirst_append_singleton {α : Type} [DecidableEq α] (l : List α) (x : α) :
    dedupFirst (l ++ [x]) = insertNew (dedupFirst l) x := by
  unfold dedupFirst
  rw [List.foldl_append]
  rfl

theorem mem_insertNew {α : Type} [DecidableEq α] (vs : List α) (v x : α) :
    x ∈ insertNew vs v ↔ x ∈ vs ∨ x = v := by
  unfold insertNew
  by_cases h : v ∈ vs
  · simp only [if_pos h]
    constructor
    · exact fun hx => Or.inl hx
    · rintro (hx | rfl) <;> [exact hx; exact h]
  · simp [if_neg h]

theorem mem_dedupFirst {α : Type} [DecidableEq α] (l : List α) (x : α) :
    x ∈ dedupFirst l ↔ x ∈ l := by
  induction l using List.reverseRecOn with
  | nil => simp [dedupFirst]
  | append_singleton t a ih =>
      rw [dedupFirst_append_singleton, mem_insertNew]
      simp [ih]

theorem nodup_insertNew {α : Type} [DecidableEq α] (vs : List α) (v : α) (h : vs.Nodup) :
    (insertNew vs v).Nodup := by
  unfold insertNew
  by_cases hv : v ∈ vs
  · simpa [hv]
  · simp only [if_neg hv]
    simp [List.nodup_append, h, hv]

theorem nodup_dedupFirst {α : Type} [DecidableEq α] (l : List α) : (dedupFirst l).Nodup := by
  induction l using List.reverseRecOn with
  | nil => simp [dedupFirst]
  | append_singleton t a ih =>
      rw [dedupFirst_append_singleton]
      exact nodup_insertNew _ _ ih

theorem toFinset_dedupFirst {α : Type} [DecidableEq α] (l : List α) :
    (dedupFirst l).toFinset = l.toFinset := by
  ext x
  simp [List.mem_toFinset, mem_dedupFirst]

theorem length_dedupFirst {α : Type} [DecidableEq α] (l : List α) :
    (dedupFirst l).length = l.toFinset.card := by
  rw [← toFinset_dedupFirst, List.card_toFinset, List.Nodup.dedup (nodup_dedupFirst l)]

/-- The column array read by the cell write of line 474, after the
registration of lines 468-472 has ensured it exists. -/
def ensured (n : ℕ) (st : ScanState) (c : String) : List Value :=
  (if c ∈ st.columns then st.data c else some (List.replicate n Value.null)).getD []

theorem stepEntry_columns (n thr i : ℕ) (st : ScanState) (e : String × JSVal) :
    (stepEntry n thr i st e).columns = insertNew st.columns e.1 := rfl

theorem stepEntry_data (n thr i : ℕ) (st : ScanState) (e : String × JSVal) (col : String) :
    (stepEntry n thr i st e).data col =
      if e.1 = col then some ((ensured n st e.1).set i (normalize e.2))
      else st.data col := by
  show upd _ e.1 _ col = _
  by_cases h : e.1 = col
  · subst h
    rw [upd_same]
    by_cases hm : e.1 ∈ st.columns <;> simp [ensured, hm, upd_same]
  · rw [upd_ne _ _ (fun hcontra => h hcontra.symm), if_neg h]
    by_cases hm : e.1 ∈ st.columns
    · simp [hm]
    · simp only [if_neg hm]
      exact upd_ne _ _ (fun hcontra => h hcontra.symm)

theorem stepEntry_stats (n thr i : ℕ) (st : ScanState) (e : String × JSVal) (col : String) :
    (stepEntry n thr i st e).stats col =
      if e.1 = col then statValUpd (st.stats col) (normalize e.2) else st.stats col := by
  show (match normalize e.2 with
    | Value.num q =>
        match st.stats e.1 with
        | none => upd st.stats e.1 (some { statMin := q, statMax := q, mean := 0, sum := q, count := 1 })
        | some s0 => upd st.stats e.1 (some { statMin := min s0.statMin q, statMax := max s0.statMax q,
                                              mean := s0.mean, sum := s0.sum + q, count := s0.count + 1 })
    | _ => st.stats) col = _
  by_cases h : e.1 = col
  · subst h
    cases hv : normalize e.2 with
    | num q => cases hs : st.stats e.1 <;> simp [statValUpd, hs, upd_same]
    | bool b => simp [statValUpd]
    | str s => simp [statValUpd]
    | null => simp [statValUpd]
  · have hne : col ≠ e.1 := fun hcontra => h hcontra.symm
    cases hv : normalize e.2 with
    | num q => cases hs : st.stats e.1 <;> simp [hs, upd_ne _ _ hne, if_neg h]
    | bool b => simp [if_neg h]
    | str s => simp [if_neg h]
    | null => simp [if_neg h]

theorem stepEntry_uniq (n thr i : ℕ) (st : ScanState) (e : String × JSVal) (col : String) :
    (stepEntry n thr i st e).uniq col =
      if e.1 = col then trackValUpd thr (st.uniq col) (normalize e.2) else st.uniq col := by
  show (if isTrackable (normalize e.2) then
      match st.uniq e.1 with
      | Track.nullAb => st.uniq
      | Track.undef => upd st.uniq e.1 (if thr ≤ 1 then Track.nullAb else Track.tracked [normalize e.2])
      | Track.tracked vs =>
          let vs2 := if normalize e.2 ∈ vs then vs else vs ++ [normalize e.2]
          upd st.uniq e.1 (if thr ≤ vs2.length then Track.nullAb else Track.tracked vs2)
    else st.uniq) col = _
  by_cases ht : isTrackable (normalize e.2)
  · by_cases h : e.1 = col
    · subst h
      cases hu : st.uniq e.1 with
      | nullAb => simp [trackValUpd, ht, hu]
      | undef => simp [trackValUpd, ht, hu, upd_same]
      | tracked vs => simp [trackValUpd, ht, hu, upd_same, insertNew]
    · have hne : col ≠ e.1 := fun hcontra => h hcontra.symm
      cases hu : st.uniq e.1 <;>
        simp [trackValUpd, ht, hu, upd_ne _ _ hne, if_neg h]
  · have ht2 : isTrackable (normalize e.2) = false := by
      revert ht; cases isTrackable (normalize e.2) <;> simp
    by_cases h : e.1 = col <;> simp [trackValUpd, ht2, if_neg, h]

/-- Invariant of the scan loop, relating the state after processing the
prefix `pre` of the entry stream to the input observations. -/
structure ScanInv (n thr : ℕ) (pre : List (ℕ × (String × JSVal))) (st : ScanState) : Prop where
  len_ok : ∀ col l, st.data col = some l → l.length = n
  null_ok : ∀ col l j, st.data col = some l →
    (∀ p ∈ pre, ¬(p.1 = j ∧ p.2.1 = col)) → l.getD j Value.null = Value.null
  data_mem : ∀ col, st.data col ≠ none ↔ col ∈ keysOf pre
  cols_eq : st.columns = dedupFirst (keysOf pre)
  stats_eq : ∀ col, st.stats col = (valsOf pre col).foldl statValUpd none
  uniq_eq : ∀ col, st.uniq col = (valsOf pre col).foldl (trackValUpd thr) Track.undef

theorem scanInv_init (n thr : ℕ) : ScanInv n thr [] initState := by
  refine ⟨?_, ?_, ?_, ?_, ?_, ?_⟩ <;>
    simp [initState, keysOf, valsOf, dedupFirst]

theorem valsOf_append_singleton (pre : List (ℕ × (String × JSVal)))
    (a : ℕ × (String × JSVal)) (col : String) :
    valsOf (pre ++ [a]) col =
      valsOf pre col ++ (if a.2.1 = col then [normalize a.2.2] else []) := by
  unfold valsOf
  rw [List.filterMap_append]
  by_cases h : a.2.1 = col <;> simp [h]

theorem keysOf_append_singleton (pre : List (ℕ × (String × JSVal)))
    (a : ℕ × (String × JSVal)) :
    keysOf (pre ++ [a]) = keysOf pre ++ [a.2.1] := by
  simp [keysOf]

theorem scanInv_step (n thr : ℕ) (pre : List (ℕ × (String × JSVal)))
    (a : ℕ × (String × JSVal)) (st : ScanState) (h : ScanInv n thr pre st) :
    ScanInv n thr (pre ++ [a]) (stepEntry n thr a.1 st a.2) := by
  have hmemdata : a.2.1 ∈ st.columns ↔ st.data a.2.1 ≠ none := by
    rw [h.cols_eq, mem_dedupFirst, h.data_mem]
  have hens : (ensured n st a.2.1).length = n := by
    by_cases hm : a.2.1 ∈ st.columns
    · obtain ⟨arr, harr⟩ := Option.ne_none_iff_exists'.mp (hmemdata.mp hm)
      simp only [ensured, if_pos hm, harr, Option.getD_some]
      exact h.len_ok _ _ harr
    · simp [ensured, hm]
  constructor
  case len_ok =>
    intro col l hl
    rw [stepEntry_data] at hl
    by_cases hc : a.2.1 = col
    · rw [if_pos hc] at hl
      cases hl
      rw [List.length_set]
      exact hens
    · rw [if_neg hc] at hl
      exact h.len_ok col l hl
  case null_ok =>
    intro col l j hl hnw
    have hnwpre : ∀ p ∈ pre, ¬(p.1 = j ∧ p.2.1 = col) := by
      intro p hp
      exact hnw p (List.mem_append_left _ hp)
    rw [stepEntry_data] at hl
    by_cases hc : a.2.1 = col
    · rw [if_pos hc] at hl
      cases hl
      have hij : a.1 ≠ j := by
        intro hij
        exact hnw a (List.mem_append_right _ (List.mem_singleton_self a)) ⟨hij, hc⟩
      have hget : ((ensured n st a.2.1).set a.1 (normalize a.2.2)).getD j Value.null =
          (ensured n st a.2.1).getD j Value.null := by
        rw [List.getD_eq_getElem?_getD, List.getD_eq_getElem?_getD, List.getElem?_set,
          if_neg hij]
      rw [hget]
      by_cases hm : a.2.1 ∈ st.columns
      · obtain ⟨arr, harr⟩ := Option.ne_none_iff_exists'.mp (hmemdata.mp hm)
        simp only [ensured, if_pos hm, harr, Option.getD_some]
        exact h.null_ok _ arr j harr (hc ▸ hnwpre)
      · simp only [ensured, if_neg hm, Option.getD_some]
        rw [List.getD_eq_getElem?_getD, List.getElem?_replicate]
        by_cases hj : j < n <;> simp [hj]
    · rw [if_neg hc] at hl
      exact h.null_ok col l j hl hnwpre
  case data_mem =>
    intro col
    rw [stepEntry_data, keysOf_append_singleton]
    by_cases hc : a.2.1 = col
    · simp [hc]
    · rw [if_neg hc, h.data_mem col, List.mem_append, List.mem_singleton]
      constructor
      · exact Or.inl
      · rintro (hk | hk)
        · exact hk
        · exact absurd hk.symm hc
  case cols_eq =>
    rw [stepEntry_columns, keysOf_append_singleton, dedupFirst_append_singleton, h.cols_eq]
  case stats_eq =>
    intro col
    rw [stepEntry_stats, valsOf_append_singleton, List.foldl_append, ← h.stats_eq col]
    by_cases hc : a.2.1 = col <;> simp [hc]
  case uniq_eq =>
    intro col
    rw [stepEntry_uniq, valsOf_append_singleton, List.foldl_append, ← h.uniq_eq col]
    by_cases hc : a.2.1 = col <;> simp [hc]

/-- The scan state after the full pass satisfies the invariant for the whole
entry stream. -/
theorem scanInv_scanRows (thr : ℕ) (rows : List Row) :
    ScanInv rows.length thr (entryStream rows) (scanRows thr rows) := by
  rw [scanRows_eq_stream]
  exact foldl_prefix_invariant _ (fun pre st => ScanInv rows.length thr pre st)
    (entryStream rows) initState (scanInv_init _ _)
    (fun pre a st hst => scanInv_step _ _ pre a st hst)

/-- The final tracking state of a column is determined by the distinct
trackable (boolean or text) values it received: no such value means the key
was never created, reaching the threshold means tracking was abandoned, and
otherwise the set holds the distinct values in first-appearance order. -/
theorem track_foldl_char (thr : ℕ) (l : List Value) :
    l.foldl (trackValUpd thr) Track.undef =
      (if (dedupFirst (l.filter (fun v => isTrackable v))).length = 0 then Track.undef
       else if thr ≤ (dedupFirst (l.filter (fun v => isTrackable v))).length then Track.nullAb
       else Track.tracked (dedupFirst (l.filter (fun v => isTrackable v)))) := by
  induction l using List.reverseRecOn with
  | nil => rfl
  | append_singleton t a ih =>
      rw [List.foldl_append, ih]
      by_cases ha : isTrackable a
      · have hfil : (t ++ [a]).filter (fun v => isTrackable v) =
            t.filter (fun v => isTrackable v) ++ [a] := by
          rw [List.filter_append]
          simp [ha]
        rw [hfil, dedupFirst_append_singleton]
        by_cases h0 : (dedupFirst (t.filter (fun v => isTrackable v))).length = 0
        · have hd : dedupFirst (t.filter (fun v => isTrackable v)) = [] :=
            List.length_eq_zero.mp h0
          rw [if_pos h0]
          simp only [List.foldl_cons, List.foldl_nil, hd]
          have hins : insertNew ([] : List Value) a = [a] := by simp [insertNew]
          rw [hins]
          simp only [trackValUpd, ha, if_pos]
          by_cases h1 : thr ≤ 1 <;> simp [h1]
        · set dd := dedupFirst (t.filter (fun v => isTrackable v)) with hdd
          have hlen : dd.length ≤ (insertNew dd a).length ∧
              (insertNew dd a).length ≤ dd.length + 1 := by
            unfold insertNew
            by_cases hm : a ∈ dd <;> simp [hm]
          have hlen0 : (insertNew dd a).length ≠ 0 := by omega
          rw [if_neg h0]
          by_cases hth : thr ≤ dd.length
          · have hth2 : thr ≤ (insertNew dd a).length := le_trans hth hlen.1
            rw [if_pos hth]
            simp only [List.foldl_cons, List.foldl_nil, trackValUpd, ha, if_pos]
            simp [hlen0, hth2]
          · rw [if_neg hth, if_neg hlen0]
            simp only [List.foldl_cons, List.foldl_nil]
            show trackValUpd thr (Track.tracked dd) a = _
            unfold trackValUpd
            rw [if_pos ha]
      · have hfil : (t ++ [a]).filter (fun v => isTrackable v) =
            t.filter (fun v => isTrackable v) := by
          rw [List.filter_append]
          simp [ha]
        have hupd : ∀ tr : Track, trackValUpd thr tr a = tr := by
          intro tr
          unfold trackValUpd
          simp [ha]
        rw [hfil]
        simp [hupd]

/-- Numeric observations of a normalized value list. -/
def numsOf (l : List Value) : List ℚ :=
  l.filterMap (fun v => match v with | .num q => some q | _ => none)

theorem colNums_eq_numsOf (rows : List Row) (col : String) :
    colNums rows col = numsOf (colStream rows col) := rfl

/-- The statistics fold is `none` exactly when the column had no numeric
observation, and otherwise accumulates count, sum and min/max bounds of the
numeric observations (the mean stays at its initialization, 0, until the
finalization pass). -/
theorem stats_foldl_char (l : List Value) :
    (match l.foldl statValUpd none with
     | none => numsOf l = []
     | some s => numsOf l ≠ [] ∧ s.count = (numsOf l).length ∧ s.sum = (numsOf l).sum ∧
         s.mean = 0 ∧ ∀ q ∈ numsOf l, s.statMin ≤ q ∧ q ≤ s.statMax) := by
  induction l using List.reverseRecOn with
  | nil => simp [numsOf]
  | append_singleton t a ih =>
      rw [List.foldl_append]
      cases ha : a with
      | num q =>
          have hnums : numsOf (t ++ [Value.num q]) = numsOf t ++ [q] := by
            unfold numsOf
            rw [List.filterMap_append]
            rfl
          cases hf : t.foldl statValUpd none with
          | none =>
              rw [hf] at ih
              simp only [hf, List.foldl_cons, List.foldl_nil, statValUpd]
              rw [hnums, ih]
              refine ⟨by simp, by simp, by simp, by trivial, ?_⟩
              intro x hx
              have hxq : x = q := by simpa using hx
              subst hxq
              exact ⟨le_refl _, le_refl _⟩
          | some s =>
              rw [hf] at ih
              obtain ⟨hne, hcount, hsum, hmean, hbounds⟩ := ih
              simp only [hf, List.foldl_cons, List.foldl_nil, statValUpd]
              rw [hnums]
              refine ⟨by simp, by simp [hcount], by simp [hsum], hmean, ?_⟩
              intro x hx
              rw [List.mem_append, List.mem_singleton] at hx
              rcases hx with hx | rfl
              · obtain ⟨h1, h2⟩ := hbounds x hx
                exact ⟨le_trans (min_le_left _ _) h1, le_trans h2 (le_max_left _ _)⟩
              · exact ⟨min_le_right _ _, le_max_right _ _⟩
      | bool b =>
          have hnums : numsOf (t ++ [a]) = numsOf t := by
            unfold numsOf
            rw [List.filterMap_append, ha]
            simp
          have hupd : ∀ o : Option ColumnStats, statValUpd o a = o := by
            intro o; rw [ha]; rfl
          rw [ha] at hnums hupd
          simp only [List.foldl_cons, List.foldl_nil, hupd, hnums]
          exact ih
      | str s2 =>
          have hnums : numsOf (t ++ [a]) = numsOf t := by
            unfold numsOf
            rw [List.filterMap_append, ha]
            simp
          have hupd : ∀ o : Option ColumnStats, statValUpd o a = o := by
            intro o; rw [ha]; rfl
          rw [ha] at hnums hupd
          simp only [List.foldl_cons, List.foldl_nil, hupd, hnums]
          exact ih
      | null =>
          have hnums : numsOf (t ++ [a]) = numsOf t := by
            unfold numsOf
            rw [List.filterMap_append, ha]
            simp
          have hupd : ∀ o : Option ColumnStats, statValUpd o a = o := by
            intro o; rw [ha]; rfl
          rw [ha] at hnums hupd
          simp only [List.foldl_cons, List.foldl_nil, hupd, hnums]
          exact ih

theorem convert_empty (thr : ℕ) (rows : List Row) (h : rows.length = 0) :
    convertToColumnar thr rows =
      { columns := [], data := fun _ => none, rowCount := 0,
        stats := fun _ => none, categories := fun _ => none } := by
  unfold convertToColumnar
  rw [if_pos h]

theorem convert_columns_pos (thr : ℕ) (rows : List Row) (h : rows.length ≠ 0) :
    (convertToColumnar thr rows).columns = (scanRows thr rows).columns := by
  unfold convertToColumnar
  rw [if_neg h]

theorem convert_data_pos (thr : ℕ) (rows : List Row) (h : rows.length ≠ 0) (col : String) :
    (convertToColumnar thr rows).data col =
      (match (scanRows thr rows).uniq col with
       | Track.tracked _ => none
       | _ => (scanRows thr rows).data col) := by
  unfold convertToColumnar
  rw [if_neg h]

theorem convert_stats_pos (thr : ℕ) (rows : List Row) (h : rows.length ≠ 0) (col : String) :
    (convertToColumnar thr rows).stats col = finalizeStats (scanRows thr rows).stats col := by
  unfold convertToColumnar
  rw [if_neg h]

theorem convert_categories_pos (thr : ℕ) (rows : List Row) (h : rows.length ≠ 0) (col : String) :
    (convertToColumnar thr rows).categories col =
      (match (scanRows thr rows).uniq col with
       | Track.tracked vals =>
           some (encodeColumn rows.length (((scanRows thr rows).data col).getD []) vals)
       | _ => none) := by
  unfold convertToColumnar
  rw [if_neg h]

/-- Final tracking state of a column, as a function of the input. -/
theorem uniq_scan (thr : ℕ) (rows : List Row) (col : String) :
    (scanRows thr rows).uniq col =
      (if (dedupFirst ((colStream rows col).filter (fun v => isTrackable v))).length = 0
         then Track.undef
       else if thr ≤ (dedupFirst ((colStream rows col).filter (fun v => isTrackable v))).length
         then Track.nullAb
       else Track.tracked (dedupFirst ((colStream rows col).filter (fun v => isTrackable v)))) := by
  rw [(scanInv_scanRows thr rows).uniq_eq col, valsOf_entryStream, track_foldl_char]

/-- Final statistics accumulator of a column, as a fold over the input. -/
theorem stats_scan (thr : ℕ) (rows : List Row) (col : String) :
    (scanRows thr rows).stats col = (colStream rows col).foldl statValUpd none := by
  rw [(scanInv_scanRows thr rows).stats_eq col, valsOf_entryStream]

theorem cols_scan (thr : ℕ) (rows : List Row) :
    (scanRows thr rows).columns = firstKeys rows := by
  rw [(scanInv_scanRows thr rows).cols_eq, keysOf_entryStream]
  rfl

theorem data_scan_mem (thr : ℕ) (rows : List Row) (col : String) :
    (scanRows thr rows).data col ≠ none ↔ col ∈ rows.flatMap rowKeys := by
  rw [(scanInv_scanRows thr rows).data_mem col, keysOf_entryStream]

theorem colStream_ne_nil_mem (rows : List Row) (col : String)
    (h : colStream rows col ≠ []) : col ∈ rows.flatMap rowKeys := by
  obtain ⟨v, hv⟩ := List.exists_mem_of_ne_nil _ h
  unfold colStream at hv
  rw [List.mem_flatMap] at hv
  obtain ⟨r, hr, hvr⟩ := hv
  rw [List.mem_map] at hvr
  obtain ⟨e, he, rfl⟩ := hvr
  rw [List.mem_filter] at he
  rw [List.mem_flatMap]
  refine ⟨r, hr, ?_⟩
  unfold rowKeys
  rw [List.mem_map]
  exact ⟨e, he.1, by simpa using he.2⟩

/-- A live tracked set is the ordered distinct trackable values of the
column, and is nonempty. -/
theorem tracked_inv (thr : ℕ) (rows : List Row) (col : String) (vals : List Value)
    (h : (scanRows thr rows).uniq col = Track.tracked vals) :
    vals = dedupFirst ((colStream rows col).filter (fun v => isTrackable v)) ∧
      vals ≠ [] ∧ colStream rows col ≠ [] := by
  rw [uniq_scan] at h
  by_cases h0 : (dedupFirst ((colStream rows col).filter (fun v => isTrackable v))).length = 0
  · rw [if_pos h0] at h
    exact absurd h (by simp)
  · rw [if_neg h0] at h
    by_cases hth : thr ≤ (dedupFirst ((colStream rows col).filter (fun v => isTrackable v))).length
    · rw [if_pos hth] at h
      exact absurd h (by simp)
    · rw [if_neg hth] at h
      have hvals : vals = dedupFirst ((colStream rows col).filter (fun v => isTrackable v)) := by
        cases h
        rfl
      have hne : vals ≠ [] := by
        rw [hvals]
        intro hcontra
        rw [hcontra] at h0
        exact h0 rfl
      refine ⟨hvals, hne, ?_⟩
      intro hcs
      apply hne
      rw [hvals, hcs]
      rfl

theorem no_entry_of_row (rows : List Row) (i : ℕ) (col : String)
    (h : ∀ e ∈ rows.getD i [], e.1 ≠ col) :
    ∀ p ∈ entryStream rows, ¬(p.1 = i ∧ p.2.1 = col) := by
  rintro p hp ⟨hpi, hpc⟩
  unfold entryStream at hp
  rw [List.mem_flatMap] at hp
  obtain ⟨q, hq, hpq⟩ := hp
  rw [List.mem_map] at hpq
  obtain ⟨e, he, rfl⟩ := hpq
  obtain ⟨qi, qr⟩ := q
  obtain ⟨hlt, hrow⟩ := List.mem_enum hq
  simp only at hpi hpc he
  subst hpi
  have hget : rows.getD qi [] = qr := by
    rw [List.getD_eq_getElem?_getD, List.getElem?_eq_getElem hlt, Option.getD_some, ← hrow]
  exact h e (by rw [hget]; exact he) hpc

/-! Rational bounds on the natural-logarithm thresholds used by the claims,
derived from the decimal bounds on `e` available in the library. -/

theorem exp_two_lt : Real.exp 2 < 7.3890561 := by
  have h1 : Real.exp 2 = Real.exp 1 * Real.exp 1 := by
    rw [← Real.exp_add]; norm_num
  have h2 := Real.exp_one_lt_d9
  have h3 := Real.exp_pos 1
  nlinarith

theorem exp_two_gt : (7.389056 : ℝ) < Real.exp 2 := by
  have h1 : Real.exp 2 = Real.exp 1 * Real.exp 1 := by
    rw [← Real.exp_add]; norm_num
  have h2 := Real.exp_one_gt_d9
  have h3 := Real.exp_pos 1
  nlinarith

theorem exp_three_gt : (20.0855 : ℝ) < Real.exp 3 := by
  have h1 : Real.exp 3 = Real.exp 1 * Real.exp 1 * Real.exp 1 := by
    rw [← Real.exp_add, ← Real.exp_add]; norm_num
  have h2 := Real.exp_one_gt_d9
  have h3 := Real.exp_pos 1
  nlinarith

theorem two_lt_log_twenty : (2:ℝ) < Real.log 20 := by
  rw [Real.lt_log_iff_exp_lt (by norm_num : (0:ℝ) < 20)]
  linarith [exp_two_lt]

theorem ceil_log_twenty : Nat.ceil (Real.log (20:ℝ)) = 3 := by
  rw [Nat.ceil_eq_iff (by norm_num : (3:ℕ) ≠ 0)]
  constructor
  · push_cast
    rw [Real.lt_log_iff_exp_lt (by norm_num : (0:ℝ) < 20)]
    linarith [exp_two_lt]
  · push_cast
    rw [Real.log_le_iff_le_exp (by norm_num : (0:ℝ) < 20)]
    linarith [exp_three_gt]

theorem ceil_log_three : Nat.ceil (Real.log (3:ℝ)) = 2 := by
  rw [Nat.ceil_eq_iff (by norm_num : (2:ℕ) ≠ 0)]
  constructor
  · push_cast
    rw [Real.lt_log_iff_exp_lt (by norm_num : (0:ℝ) < 3)]
    linarith [Real.exp_one_lt_d9]
  · push_cast
    rw [Real.log_le_iff_le_exp (by norm_num : (0:ℝ) < 3)]
    linarith [exp_two_gt]

theorem ceil_log_eight : Nat.ceil (Real.log (8:ℝ)) = 3 := by
  rw [Nat.ceil_eq_iff (by norm_num : (3:ℕ) ≠ 0)]
  constructor
  · push_cast
    rw [Real.lt_log_iff_exp_lt (by norm_num : (0:ℝ) < 8)]
    linarith [exp_two_lt]
  · push_cast
    rw [Real.log_le_iff_le_exp (by norm_num : (0:ℝ) < 8)]
    linarith [exp_three_gt]

/-! Claim C8. -/

/-- C8: the type-inference examples of the specification, evaluated on the
embedded `inferType`: a first non-null sample of `true` gives `boolean`;
`42` gives `number`; `1704000000000` (inside the epoch window
`946684800000 < x < 4102444800000`, years 2000-2100) gives `date`;
`"2024-01-15"` and `"2024-01-15T10:30:00Z"` give `date`; `"Alice"` gives
`string`; an all-null column gives `string`. -/
theorem inferType_examples :
    inferType [Value.null, Value.bool true] = DataType.boolean ∧
    inferType [Value.num 42] = DataType.number ∧
    inferType [Value.num 1704000000000] = DataType.date ∧
    inEpochWindow 1704000000000 = true ∧
    inferType [Value.str "2024-01-15"] = DataType.date ∧
    inferType [Value.str "2024-01-15T10:30:00Z"] = DataType.date ∧
    inferType [Value.str "Alice"] = DataType.string ∧
    inferType [Value.null, Value.null] = DataType.string := by
  decide

/-! Claim C1. -/

/-- Input with a column that mixes a numeric value with repeated text. -/
def rowsMixedA : List Row :=
  [[("a", JSVal.num 5)], [("a", JSVal.str "x")], [("a", JSVal.str "x")]]

/-- C1 (code bug): the claim — and the specification — say that a column
that ever receives a numeric value is excluded entirely from categorical
tracking and encoding.  The code only refrains from adding numeric values to
the tracked set (line 478) and never abandons the column, so column `a`,
which receives the number `5` at row 0, is still dictionary-encoded from its
text values.  The converter is evaluated here at the failing input with the
code's own threshold `ceil (ln 3) = 2` for its 3 rows. -/
theorem numeric_column_still_encoded :
    rowsMixedA.length = 3 ∧
    Value.num 5 ∈ colStream rowsMixedA "a" ∧
    (convertToColumnar (Nat.ceil (Real.log (3:ℝ))) rowsMixedA).categories "a" =
      some { dictionary := [Value.str "x"], encoded := [0, 0, 0] } := by
  refine ⟨by decide, by decide, ?_⟩
  rw [ceil_log_three]
  decide

/-! Claim C3. -/

/-- Input with a mixed numeric/text column, used to exhibit the round-trip
failure of the dictionary encoding. -/
def rowsMixedB : List Row :=
  [[("b", JSVal.num 7)], [("b", JSVal.str "y")], [("b", JSVal.str "y")]]

/-- C3 (code bug): the claim — and the specification — say decoding the
stored index reproduces the normalized value exactly, with `-1` reserved for
null.  At row 0 the normalized value of column `b` is the number `7`, which
is not null, yet it is absent from the dictionary, so the
`valueToIndex.get(...)!` lookup of line 545 misses and the `Int8Array` write
stores `0`: the decoder then yields `dictionary[0] = "y" ≠ 7`.  The
converter is evaluated at the failing input with the code's own threshold
`ceil (ln 3) = 2`. -/
theorem dictionary_round_trip_fails :
    rowsMixedB.length = 3 ∧
    (colStream rowsMixedB "b").getD 0 Value.null = Value.num 7 ∧
    (convertToColumnar (Nat.ceil (Real.log (3:ℝ))) rowsMixedB).categories "b" =
      some { dictionary := [Value.str "y"], encoded := [0, 0, 0] } ∧
    Value.str "y" ≠ Value.num 7 := by
  refine ⟨by decide, by decide, ?_, by decide⟩
  rw [ceil_log_three]
  decide

/-! Claim C2. -/

/-- Number of distinct trackable (boolean or text) values of a column. -/
def distinctTrackedCount (rows : List Row) (col : String) : ℕ :=
  ((colStream rows col).filter (fun v => isTrackable v)).toFinset.card

/-- Twenty rows whose column `c` has exactly three distinct text values. -/
def r20c3 : List Row :=
  (List.range 20).map (fun i => [("c", JSVal.str (["a", "b", "d"].getD (i % 3) ""))])

/-- C2 (counterexample): the claim's boundary scenario demands that at
`rowCount = 20` a qualifying column with exactly 3 distinct values is
categorical.  But `3 ≥ ln 20 ≈ 2.9957`, so the code abandons tracking at the
third distinct value and produces no categories entry. -/
theorem boundary_three_distinct_not_categorical :
    r20c3.length = 20 ∧
    distinctTrackedCount r20c3 "c" = 3 ∧
    (∀ v ∈ colStream r20c3 "c", v = Value.null ∨ isTrackable v = true) ∧
    (convertToColumnar (Nat.ceil (Real.log (20:ℝ))) r20c3).categories "c" = none := by
  refine ⟨by decide, by decide, by decide, ?_⟩
  rw [ceil_log_twenty]
  decide

/-- C2 (amended): a column whose non-null values are exclusively boolean or
text receives a dictionary encoding iff it has at least one such value and
its distinct-value count is strictly below `ln rowCount`.  In particular at
`rowCount = 20` a column with 3 distinct values is NOT categorical (since
`3 > ln 20`), while one with 2 distinct values is. -/
theorem categorical_iff_cardinality (rows : List Row) (thr : ℕ) (col : String)
    (hthr : thr = Nat.ceil (Real.log (rows.length : ℝ)))
    (hscope : ∀ v ∈ colStream rows col, v = Value.null ∨ isTrackable v = true) :
    (convertToColumnar thr rows).categories col ≠ none ↔
      1 ≤ distinctTrackedCount rows col ∧
        (distinctTrackedCount rows col : ℝ) < Real.log (rows.length : ℝ) := by
  by_cases h : rows.length = 0
  · have hrows := List.length_eq_zero.mp h
    subst hrows
    rw [convert_empty thr [] rfl]
    have hD : distinctTrackedCount [] col = 0 := rfl
    constructor
    · intro hcontra
      exact absurd rfl hcontra
    · rintro ⟨h1, _⟩
      omega
  · rw [convert_categories_pos thr rows h col, uniq_scan]
    have hDlen : (dedupFirst ((colStream rows col).filter (fun v => isTrackable v))).length =
        distinctTrackedCount rows col := length_dedupFirst _
    have hiff : (dedupFirst ((colStream rows col).filter (fun v => isTrackable v))).length < thr ↔
        ((dedupFirst ((colStream rows col).filter (fun v => isTrackable v))).length : ℝ) <
          Real.log (rows.length : ℝ) := by
      rw [hthr]
      exact Nat.lt_ceil
    by_cases h0 : (dedupFirst ((colStream rows col).filter (fun v => isTrackable v))).length = 0
    · rw [if_pos h0]
      constructor
      · intro hcontra
        exact absurd rfl hcontra
      · rintro ⟨h1, _⟩
        omega
    · rw [if_neg h0]
      by_cases hth : thr ≤ (dedupFirst ((colStream rows col).filter (fun v => isTrackable v))).length
      · rw [if_pos hth]
        constructor
        · intro hcontra
          exact absurd rfl hcontra
        · rintro ⟨h1, h2⟩
          rw [← hDlen] at h2
          exact absurd (hiff.mpr h2) (by omega)
      · rw [if_neg hth]
        constructor
        · intro _
          refine ⟨by omega, ?_⟩
          rw [← hDlen]
          exact hiff.mp (by omega)
        · intro _
          intro hcontra
          exact Option.noConfusion hcontra

/-- Twenty rows whose column `c` has exactly two distinct text values. -/
def r20c2 : List Row :=
  (List.range 20).map (fun i => [("c", JSVal.str (["a", "b"].getD (i % 2) ""))])

/-- Witness for the amended C2: at `rowCount = 20` with 2 distinct values
(`2 < ln 20`), the column is dictionary-encoded. -/
theorem categorical_iff_cardinality_witness :
    (convertToColumnar 3 r20c2).categories "c" ≠ none := by
  have hlen : r20c2.length = 20 := by decide
  have hthr : (3:ℕ) = Nat.ceil (Real.log (r20c2.length : ℝ)) := by
    rw [hlen]
    have hcast : ((20:ℕ) : ℝ) = (20:ℝ) := by norm_num
    rw [hcast, ceil_log_twenty]
  have hscope : ∀ v ∈ colStream r20c2 "c", v = Value.null ∨ isTrackable v = true := by decide
  have hD : distinctTrackedCount r20c2 "c" = 2 := by decide
  refine (categorical_iff_cardinality r20c2 3 "c" hthr hscope).mpr ⟨by omega, ?_⟩
  rw [hD, hlen]
  have hcast : ((20:ℕ) : ℝ) = (20:ℝ) := by norm_num
  rw [hcast]
  have hcast2 : ((2:ℕ) : ℝ) = (2:ℝ) := by norm_num
  rw [hcast2]
  exact two_lt_log_twenty

/-! Claim C4. -/

/-- C4: for every column — with no column exempted by its name — a
statistics entry exists iff the column received at least one non-null
numeric value; then `count` is the number of non-null numeric entries (not
total rows), `sum` is their exact total, `mean = sum / count`, and `min`/
`max` bound every numeric observation.  Text values never contribute because
`colNums` collects only values of numeric runtime type. -/
theorem stats_characterization (rows : List Row) (thr : ℕ) (col : String) :
    ((convertToColumnar thr rows).stats col = none ↔ colNums rows col = []) ∧
    (∀ s, (convertToColumnar thr rows).stats col = some s →
      s.count = (colNums rows col).length ∧
      s.sum = (colNums rows col).sum ∧
      s.mean = s.sum / (s.count : ℚ) ∧
      (∀ q ∈ colNums rows col, s.statMin ≤ q ∧ q ≤ s.statMax)) := by
  by_cases h : rows.length = 0
  · have hrows := List.length_eq_zero.mp h
    subst hrows
    rw [convert_empty thr [] rfl]
    constructor
    · exact ⟨fun _ => rfl, fun _ => rfl⟩
    · intro s hs
      exact Option.noConfusion hs
  · rw [convert_stats_pos thr rows h col]
    unfold finalizeStats
    rw [stats_scan, colNums_eq_numsOf]
    have hchar := stats_foldl_char (colStream rows col)
    cases hf : (colStream rows col).foldl statValUpd none with
    | none =>
        rw [hf] at hchar
        constructor
        · simp [hchar]
        · intro s hs
          simp at hs
    | some s0 =>
        rw [hf] at hchar
        obtain ⟨hne, hcount, hsum, hmean, hbounds⟩ := hchar
        constructor
        · simp [hne]
        · intro s hs
          have hs2 : s = { s0 with mean := s0.sum / (s0.count : ℚ) } := by
            simp only [Option.map_some'] at hs
            injection hs with h2
            exact h2.symm
          subst hs2
          exact ⟨hcount, hsum, by simp [hcount, hsum], hbounds⟩

/-- Three records whose `id` column holds two numeric values and a NaN. -/
def rowsStats : List Row :=
  [[("id", JSVal.num 3), ("t", JSVal.str "a")], [("id", JSVal.num 5)], [("id", JSVal.nan)]]

/-- Witness for C4: the column named `id` is not exempted — it gets a
statistics entry with `count = 2` (the NaN row is normalized to null and not
counted), `sum = 8` and `mean = 4`. -/
theorem stats_characterization_witness :
    (convertToColumnar 2 rowsStats).stats "id" ≠ none ∧
    (∀ s, (convertToColumnar 2 rowsStats).stats "id" = some s →
      s.count = 2 ∧ s.sum = 8 ∧ s.mean = 4) := by
  have h := stats_characterization rowsStats 2 "id"
  have hnums : colNums rowsStats "id" = [3, 5] := by decide
  constructor
  · intro hcontra
    have hcontra2 := h.1.mp hcontra
    rw [hnums] at hcontra2
    exact List.noConfusion hcontra2
  · intro s hs
    obtain ⟨hc, hsum, hmean, _⟩ := h.2 s hs
    rw [hnums] at hc hsum
    have hc2 : s.count = 2 := by simpa using hc
    have hs2 : s.sum = 8 := by
      rw [hsum]
      norm_num
    refine ⟨hc2, hs2, ?_⟩
    rw [hmean, hc2, hs2]
    norm_num

/-! Claim C5. -/

theorem encodeColumn_encoded_length (n : ℕ) (colData vals : List Value) :
    (encodeColumn n colData vals).encoded.length = n := by
  simp [encodeColumn]

theorem encodeColumn_dictionary (n : ℕ) (colData vals : List Value) :
    (encodeColumn n colData vals).dictionary = sortVals vals := rfl

theorem encodeColumn_encoded_getD (n : ℕ) (colData vals : List Value) (i : ℕ) (hi : i < n) :
    (encodeColumn n colData vals).encoded.getD i 0 =
      (if colData.getD i Value.null = Value.null then (-1 : ℤ)
       else match idxIn (sortVals vals) (colData.getD i Value.null) with
            | some k => toInt8 (k : ℤ)
            | none => 0) := by
  show ((List.range n).map _).getD i 0 = _
  rw [List.getD_eq_getElem?_getD, List.getElem?_map, List.getElem?_range hi]
  rfl

/-- C5: every raw column and every categorical index array has length
exactly the input row count, and a row where the field is absent holds null
in the raw column (or `-1` in the encoded array). -/
theorem row_length_invariant (rows : List Row) (thr : ℕ) (col : String) :
    (∀ l, (convertToColumnar thr rows).data col = some l → l.length = rows.length) ∧
    (∀ enc, (convertToColumnar thr rows).categories col = some enc →
        enc.encoded.length = rows.length) ∧
    (∀ i, i < rows.length → (∀ e ∈ rows.getD i [], e.1 ≠ col) →
      (∀ l, (convertToColumnar thr rows).data col = some l →
          l.getD i Value.null = Value.null) ∧
      (∀ enc, (convertToColumnar thr rows).categories col = some enc →
          enc.encoded.getD i 0 = -1)) := by
  by_cases h : rows.length = 0
  · rw [convert_empty thr rows h]
    refine ⟨?_, ?_, ?_⟩
    · intro l hl; exact Option.noConfusion hl
    · intro enc henc; exact Option.noConfusion henc
    · intro i hi
      omega
  · have hinv := scanInv_scanRows thr rows
    refine ⟨?_, ?_, ?_⟩
    · intro l hl
      rw [convert_data_pos thr rows h col] at hl
      cases hu : (scanRows thr rows).uniq col with
      | tracked vals => rw [hu] at hl; exact Option.noConfusion hl
      | undef => rw [hu] at hl; exact hinv.len_ok col l hl
      | nullAb => rw [hu] at hl; exact hinv.len_ok col l hl
    · intro enc henc
      rw [convert_categories_pos thr rows h col] at henc
      cases hu : (scanRows thr rows).uniq col with
      | tracked vals =>
          rw [hu] at henc
          injection henc with h2
          rw [← h2]
          exact encodeColumn_encoded_length _ _ _
      | undef => rw [hu] at henc; exact Option.noConfusion henc
      | nullAb => rw [hu] at henc; exact Option.noConfusion henc
    · intro i hi hno
      have hnw := no_entry_of_row rows i col hno
      constructor
      · intro l hl
        rw [convert_data_pos thr rows h col] at hl
        cases hu : (scanRows thr rows).uniq col with
        | tracked vals => rw [hu] at hl; exact Option.noConfusion hl
        | undef => rw [hu] at hl; exact hinv.null_ok col l i hl hnw
        | nullAb => rw [hu] at hl; exact hinv.null_ok col l i hl hnw
      · intro enc henc
        rw [convert_categories_pos thr rows h col] at henc
        cases hu : (scanRows thr rows).uniq col with
        | tracked vals =>
            rw [hu] at henc
            injection henc with h2
            obtain ⟨hvals, hvne, hcs⟩ := tracked_inv thr rows col vals hu
            have hmem : col ∈ rows.flatMap rowKeys := colStream_ne_nil_mem rows col hcs
            have hdata : (scanRows thr rows).data col ≠ none :=
              (data_scan_mem thr rows col).mpr hmem
            obtain ⟨arr, harr⟩ := Option.ne_none_iff_exists'.mp hdata
            have hnull : arr.getD i Value.null = Value.null :=
              hinv.null_ok col arr i harr hnw
            rw [← h2, encodeColumn_encoded_getD _ _ _ i hi]
            rw [harr, Option.getD_some, hnull]
            rw [if_pos rfl]
        | undef => rw [hu] at henc; exact Option.noConfusion henc
        | nullAb => rw [hu] at henc; exact Option.noConfusion henc

/-- Two records where the field `y` is present only in the first row. -/
def rowsSparse : List Row :=
  [[("x", JSVal.num 1), ("y", JSVal.str "u")], [("x", JSVal.num 2)]]

/-- Witness for C5: at threshold 2 the sparse column `y` of `rowsSparse` is
dictionary-encoded; its index array has length 2 (the row count) and holds
`-1` at row 1, where the field is absent. -/
theorem row_length_invariant_witness :
    ({ dictionary := [Value.str "u"], encoded := [0, -1] } : CategoryEncoding).encoded.length
        = rowsSparse.length ∧
    ({ dictionary := [Value.str "u"], encoded := [0, -1] } : CategoryEncoding).encoded.getD 1 0
        = -1 := by
  have h := row_length_invariant rowsSparse 2 "y"
  have hcat : (convertToColumnar 2 rowsSparse).categories "y" =
      some { dictionary := [Value.str "u"], encoded := [0, -1] } := by decide
  exact ⟨h.2.1 _ hcat, (h.2.2 1 (by decide) (by decide)).2 _ hcat⟩

/-! Claim C9. -/

/-- C9: raw storage and category encoding are mutually exclusive and jointly
exhaustive per column: every name in the returned columns list has exactly
one of a raw data entry or a categories entry, and no column ever has both,
because the raw array of a dictionary-encoded column is deleted. -/
theorem raw_encoded_exclusive (rows : List Row) (thr : ℕ) (col : String) :
    (col ∈ (convertToColumnar thr rows).columns →
      ((convertToColumnar thr rows).data col ≠ none ∧
        (convertToColumnar thr rows).categories col = none) ∨
      ((convertToColumnar thr rows).data col = none ∧
        (convertToColumnar thr rows).categories col ≠ none)) ∧
    ¬((convertToColumnar thr rows).data col ≠ none ∧
        (convertToColumnar thr rows).categories col ≠ none) := by
  by_cases h : rows.length = 0
  · rw [convert_empty thr rows h]
    constructor
    · intro hmem
      exact absurd hmem (List.not_mem_nil col)
    · rintro ⟨h1, _⟩
      exact h1 rfl
  · constructor
    · intro hmem
      rw [convert_columns_pos thr rows h, cols_scan] at hmem
      have hmem2 : col ∈ rows.flatMap rowKeys := (mem_dedupFirst _ col).mp hmem
      have hdata : (scanRows thr rows).data col ≠ none :=
        (data_scan_mem thr rows col).mpr hmem2
      rw [convert_data_pos thr rows h col, convert_categories_pos thr rows h col]
      cases hu : (scanRows thr rows).uniq col with
      | tracked vals =>
          right
          exact ⟨rfl, fun hcontra => Option.noConfusion hcontra⟩
      | undef => exact Or.inl ⟨hdata, rfl⟩
      | nullAb => exact Or.inl ⟨hdata, rfl⟩
    · rintro ⟨h1, h2⟩
      rw [convert_data_pos thr rows h col] at h1
      rw [convert_categories_pos thr rows h col] at h2
      cases hu : (scanRows thr rows).uniq col with
      | tracked vals => rw [hu] at h1; exact h1 rfl
      | undef => rw [hu] at h2; exact h2 rfl
      | nullAb => rw [hu] at h2; exact h2 rfl

/-- Two records giving a raw numeric column `x` and an encoded text column
`y` at threshold 2. -/
def rowsExcl : List Row :=
  [[("x", JSVal.num 1), ("y", JSVal.str "u")], [("x", JSVal.num 2)]]

/-- Witness for C9: in a conversion with one raw and one encoded column,
each column in the output has exactly one representation. -/
theorem raw_encoded_exclusive_witness :
    (((convertToColumnar 2 rowsExcl).data "x" ≠ none ∧
        (convertToColumnar 2 rowsExcl).categories "x" = none) ∨
      ((convertToColumnar 2 rowsExcl).data "x" = none ∧
        (convertToColumnar 2 rowsExcl).categories "x" ≠ none)) ∧
    (((convertToColumnar 2 rowsExcl).data "y" ≠ none ∧
        (convertToColumnar 2 rowsExcl).categories "y" = none) ∨
      ((convertToColumnar 2 rowsExcl).data "y" = none ∧
        (convertToColumnar 2 rowsExcl).categories "y" ≠ none)) :=
  ⟨(raw_encoded_exclusive rowsExcl 2 "x").1 (by decide),
   (raw_encoded_exclusive rowsExcl 2 "y").1 (by decide)⟩

/-! Claim C10. -/

/-- C10: the returned columns list holds each discovered field name exactly
once, in order of first appearance, and the keys of the stats and categories
mappings are all members of the columns list. -/
theorem columns_characterization (rows : List Row) (thr : ℕ) :
    (convertToColumnar thr rows).columns = firstKeys rows ∧
    (convertToColumnar thr rows).columns.Nodup ∧
    (∀ col, (convertToColumnar thr rows).stats col ≠ none →
        col ∈ (convertToColumnar thr rows).columns) ∧
    (∀ col, (convertToColumnar thr rows).categories col ≠ none →
        col ∈ (convertToColumnar thr rows).columns) := by
  by_cases h : rows.length = 0
  · have hrows := List.length_eq_zero.mp h
    subst hrows
    rw [convert_empty thr [] rfl]
    refine ⟨rfl, List.nodup_nil, ?_, ?_⟩
    · intro col hc
      exact absurd rfl hc
    · intro col hc
      exact absurd rfl hc
  · have hcols : (convertToColumnar thr rows).columns = firstKeys rows := by
      rw [convert_columns_pos thr rows h, cols_scan]
    refine ⟨hcols, ?_, ?_, ?_⟩
    · rw [hcols]
      exact nodup_dedupFirst _
    · intro col hc
      rw [convert_stats_pos thr rows h col] at hc
      unfold finalizeStats at hc
      rw [stats_scan] at hc
      have hfold : (colStream rows col).foldl statValUpd none ≠ none := by
        intro hcontra
        rw [hcontra] at hc
        exact hc rfl
      have hcs : colStream rows col ≠ [] := by
        intro hcontra
        rw [hcontra] at hfold
        exact hfold rfl
      rw [hcols]
      exact (mem_dedupFirst _ col).mpr (colStream_ne_nil_mem rows col hcs)
    · intro col hc
      rw [convert_categories_pos thr rows h col] at hc
      cases hu : (scanRows thr rows).uniq col with
      | tracked vals =>
          obtain ⟨_, _, hcs⟩ := tracked_inv thr rows col vals hu
          rw [hcols]
          exact (mem_dedupFirst _ col).mpr (colStream_ne_nil_mem rows col hcs)
      | undef => rw [hu] at hc; exact absurd rfl hc
      | nullAb => rw [hu] at hc; exact absurd rfl hc

/-- Sparse records: `y` first appears on row 0, `z` on row 1, and `x` keeps
its first-appearance position. -/
def rowsCols : List Row :=
  [[("x", JSVal.num 1), ("y", JSVal.str "u")], [("x", JSVal.num 2), ("z", JSVal.bool true)]]

/-- Witness for C10: the columns list is the first-appearance key order, and
the stats key `x` and categories key `y` are members of it. -/
theorem columns_characterization_witness :
    (convertToColumnar 2 rowsCols).columns = firstKeys rowsCols ∧
    "x" ∈ (convertToColumnar 2 rowsCols).columns ∧
    "y" ∈ (convertToColumnar 2 rowsCols).columns := by
  have h := columns_characterization rowsCols 2
  exact ⟨h.1, h.2.2.1 "x" (by decide), h.2.2.2 "y" (by decide)⟩

/-! Claim C6. -/

theorem charListLe_total : ∀ x y : List Char, charListLe x y = true ∨ charListLe y x = true := by
  intro x
  induction x with
  | nil => intro y; exact Or.inl rfl
  | cons a as ih =>
      intro y
      cases y with
      | nil => exact Or.inr rfl
      | cons b bs =>
          by_cases hab : a.toNat < b.toNat
          · left
            simp [charListLe, hab]
          · by_cases hba : b.toNat < a.toNat
            · right
              simp [charListLe, hba]
            · rcases ih bs with h | h
              · left
                simp [charListLe, hab, hba, h]
              · right
                simp [charListLe, hab, hba, h]

theorem charListLe_trans : ∀ x y z : List Char,
    charListLe x y = true → charListLe y z = true → charListLe x z = true := by
  intro x
  induction x with
  | nil => intro y z _ _; rfl
  | cons a as ih =>
      intro y z hxy hyz
      cases y with
      | nil => exact absurd hxy (by simp [charListLe])
      | cons b bs =>
          cases z with
          | nil => exact absurd hyz (by simp [charListLe])
          | cons c cs =>
              simp only [charListLe] at hxy hyz ⊢
              by_cases hab : a.toNat < b.toNat
              · by_cases hbc : b.toNat < c.toNat
                · have hac : a.toNat < c.toNat := by omega
                  simp [hac]
                · by_cases hcb : c.toNat < b.toNat
                  · rw [if_neg hbc, if_pos hcb] at hyz
                    exact absurd hyz (by simp)
                  · have hac : a.toNat < c.toNat := by omega
                    simp [hac]
              · by_cases hba : b.toNat < a.toNat
                · rw [if_neg hab, if_pos hba] at hxy
                  exact absurd hxy (by simp)
                · rw [if_neg hab, if_neg hba] at hxy
                  by_cases hbc : b.toNat < c.toNat
                  · have hac : a.toNat < c.toNat := by omega
                    simp [hac]
                  · by_cases hcb : c.toNat < b.toNat
                    · rw [if_neg hbc, if_pos hcb] at hyz
                      exact absurd hyz (by simp)
                    · rw [if_neg hbc, if_neg hcb] at hyz
                      have hac : ¬a.toNat < c.toNat := by omega
                      have hca : ¬c.toNat < a.toNat := by omega
                      rw [if_neg hac, if_neg hca]
                      exact ih bs cs hxy hyz

/-- Lexicographic order on renderings, a total preorder that agrees with the
comparator on every pair that is not boolean-boolean. -/
def lexLe (a b : Value) : Prop := strLeB (render a) (render b) = true

instance : DecidableRel lexLe :=
  fun a b => inferInstanceAs (Decidable (strLeB (render a) (render b) = true))

instance : IsTotal Value lexLe := ⟨fun x y => charListLe_total (render x).toList (render y).toList⟩

instance : IsTrans Value lexLe := ⟨fun _ _ _ hab hbc => charListLe_trans _ _ _ hab hbc⟩

/-- A value of text runtime type. -/
def isStrV : Value → Bool
  | .str _ => true
  | _ => false

/-- A value of boolean runtime type. -/
def isBoolV : Value → Bool
  | .bool _ => true
  | _ => false

theorem isStrV_elim {v : Value} (h : isStrV v = true) : ∃ s, v = Value.str s := by
  cases v with
  | str s => exact ⟨s, rfl⟩
  | num q => exact absurd h (by simp [isStrV])
  | bool b => exact absurd h (by simp [isStrV])
  | null => exact absurd h (by simp [isStrV])

theorem isBoolV_elim {v : Value} (h : isBoolV v = true) : ∃ b, v = Value.bool b := by
  cases v with
  | bool b => exact ⟨b, rfl⟩
  | num q => exact absurd h (by simp [isBoolV])
  | str s => exact absurd h (by simp [isBoolV])
  | null => exact absurd h (by simp [isBoolV])

theorem orderedInsert_congr (r s : Value → Value → Prop)
    [DecidableRel r] [DecidableRel s] (a : Value) (l : List Value)
    (hagree : ∀ b ∈ l, (r a b ↔ s a b)) :
    List.orderedInsert r a l = List.orderedInsert s a l := by
  induction l with
  | nil => rfl
  | cons b t ih =>
      have hb := hagree b (List.mem_cons_self b t)
      by_cases hr : r a b
      · rw [List.orderedInsert, List.orderedInsert, if_pos hr, if_pos (hb.mp hr)]
      · rw [List.orderedInsert, List.orderedInsert, if_neg hr,
          if_neg (fun hs => hr (hb.mpr hs)),
          ih (fun c hc => hagree c (List.mem_cons_of_mem b hc))]

theorem insertionSort_congr (r s : Value → Value → Prop)
    [DecidableRel r] [DecidableRel s] (l : List Value)
    (hagree : ∀ a ∈ l, ∀ b ∈ l, (r a b ↔ s a b)) :
    List.insertionSort r l = List.insertionSort s l := by
  induction l with
  | nil => rfl
  | cons a t ih =>
      rw [List.insertionSort, List.insertionSort,
        ← ih (fun x hx y hy =>
          hagree x (List.mem_cons_of_mem a hx) y (List.mem_cons_of_mem a hy))]
      apply orderedInsert_congr
      intro b hb
      have hbt : b ∈ t := (List.perm_insertionSort r t).mem_iff.mp hb
      exact hagree a (List.mem_cons_self a t) b (List.mem_cons_of_mem a hbt)

/-- C6 (amended): the dictionary of an encoded column lists its distinct
tracked values exactly once; a dictionary of text values is sorted by the
(locale) comparison of the strings, and a dictionary of boolean values puts
true before false.  The claim's stronger statement — that a boolean always
precedes a string in a mixed dictionary — is false (see the counterexample):
a mixed pair is compared through `String(a).localeCompare(String(b))`, so a
string smaller than the boolean's rendering precedes it. -/
theorem dictionary_sorted (rows : List Row) (thr : ℕ) (col : String) (enc : CategoryEncoding)
    (h : (convertToColumnar thr rows).categories col = some enc) :
    (enc.dictionary.Nodup ∧
      enc.dictionary.toFinset =
        ((colStream rows col).filter (fun v => isTrackable v)).toFinset) ∧
    ((∀ v ∈ enc.dictionary, isStrV v = true) → enc.dictionary.Sorted lexLe) ∧
    ((∀ v ∈ enc.dictionary, isBoolV v = true) →
      enc.dictionary = [] ∨ enc.dictionary = [Value.bool true] ∨
        enc.dictionary = [Value.bool false] ∨
        enc.dictionary = [Value.bool true, Value.bool false]) := by
  by_cases hlen : rows.length = 0
  · rw [convert_empty thr rows hlen] at h
    exact Option.noConfusion h
  · rw [convert_categories_pos thr rows hlen col] at h
    cases hu : (scanRows thr rows).uniq col with
    | undef => rw [hu] at h; exact Option.noConfusion h
    | nullAb => rw [hu] at h; exact Option.noConfusion h
    | tracked vals =>
        rw [hu] at h
        injection h with h2
        obtain ⟨hvals, hvne, _⟩ := tracked_inv thr rows col vals hu
        have hdict : enc.dictionary = sortVals vals := by
          rw [← h2]
          rfl
        have hperm : enc.dictionary.Perm vals := by
          rw [hdict]
          exact List.perm_insertionSort leVal vals
        have hnodupvals : vals.Nodup := by
          rw [hvals]
          exact nodup_dedupFirst _
        refine ⟨⟨?_, ?_⟩, ?_, ?_⟩
        · exact hperm.nodup_iff.mpr hnodupvals
        · rw [List.toFinset_eq_of_perm _ _ hperm, hvals, toFinset_dedupFirst]
        · intro hstr
          rw [hdict]
          unfold sortVals
          have hagree : ∀ a ∈ vals, ∀ b ∈ vals, (leVal a b ↔ lexLe a b) := by
            intro a ha b hb
            obtain ⟨sa, rfl⟩ := isStrV_elim (hstr a (hperm.mem_iff.mpr ha))
            obtain ⟨sb, rfl⟩ := isStrV_elim (hstr b (hperm.mem_iff.mpr hb))
            exact Iff.rfl
          rw [insertionSort_congr leVal lexLe vals hagree]
          exact List.sorted_insertionSort lexLe vals
        · intro hbool
          have hvb : ∀ v ∈ vals, isBoolV v = true :=
            fun v hv => hbool v (hperm.mem_iff.mpr hv)
          rw [hdict]
          rcases vals with _ | ⟨a, _ | ⟨b, _ | ⟨c, t⟩⟩⟩
          · exact Or.inl rfl
          · obtain ⟨x, rfl⟩ := isBoolV_elim (hvb a (by simp))
            cases x
            · exact Or.inr (Or.inr (Or.inl (by decide)))
            · exact Or.inr (Or.inl (by decide))
          · obtain ⟨x, rfl⟩ := isBoolV_elim (hvb a (by simp))
            obtain ⟨y, rfl⟩ := isBoolV_elim (hvb b (by simp))
            have hne : Value.bool x ≠ Value.bool y := by
              intro hcontra
              rw [List.nodup_cons] at hnodupvals
              exact hnodupvals.1 (by rw [hcontra]; simp)
            cases x <;> cases y
            · exact absurd rfl hne
            · exact Or.inr (Or.inr (Or.inr (by decide)))
            · exact Or.inr (Or.inr (Or.inr (by decide)))
            · exact absurd rfl hne
          · obtain ⟨x, rfl⟩ := isBoolV_elim (hvb a (by simp))
            obtain ⟨y, rfl⟩ := isBoolV_elim (hvb b (by simp))
            obtain ⟨z, rfl⟩ := isBoolV_elim (hvb c (by simp))
            rw [List.nodup_cons, List.nodup_cons] at hnodupvals
            have hxy : Value.bool x ≠ Value.bool y := by
              intro hcontra
              exact hnodupvals.1 (by rw [hcontra]; simp)
            have hxz : Value.bool x ≠ Value.bool z := by
              intro hcontra
              exact hnodupvals.1 (by rw [hcontra]; simp)
            have hyz : Value.bool y ≠ Value.bool z := by
              intro hcontra
              exact hnodupvals.2.1 (by rw [hcontra]; simp)
            cases x <;> cases y <;> cases z <;> simp_all

/-- Eight records whose column `c` alternates between the texts `b` and
`a`. -/
def rows8str : List Row :=
  [[("c", JSVal.str "b")], [("c", JSVal.str "a")], [("c", JSVal.str "b")], [("c", JSVal.str "a")],
   [("c", JSVal.str "b")], [("c", JSVal.str "a")], [("c", JSVal.str "b")], [("c", JSVal.str "a")]]

/-- Witness for the amended C6: the dictionary of the text column `c` is
duplicate-free and lexicographically sorted. -/
theorem dictionary_sorted_witness :
    ([Value.str "a", Value.str "b"] : List Value).Nodup ∧
    ([Value.str "a", Value.str "b"] : List Value).Sorted lexLe := by
  have hcat : (convertToColumnar 3 rows8str).categories "c" =
      some { dictionary := [Value.str "a", Value.str "b"],
             encoded := [1, 0, 1, 0, 1, 0, 1, 0] } := by decide
  have h := dictionary_sorted rows8str 3 "c"
    { dictionary := [Value.str "a", Value.str "b"], encoded := [1, 0, 1, 0, 1, 0, 1, 0] } hcat
  exact ⟨h.1.1, h.2.1 (by decide)⟩

/-- Eight records whose column `m` alternates between the boolean `true` and
the text `apple`: both are tracked, so the dictionary mixes the two types. -/
def rowsMixBS : List Row :=
  [[("m", JSVal.bool true)], [("m", JSVal.str "apple")],
   [("m", JSVal.bool true)], [("m", JSVal.str "apple")],
   [("m", JSVal.bool true)], [("m", JSVal.str "apple")],
   [("m", JSVal.bool true)], [("m", JSVal.str "apple")]]

/-- C6 (counterexample): the claim says that in a dictionary containing both
a boolean and a string, every boolean precedes every string, which would put
`true` before `"apple"`.  The comparator instead falls through to
`String(a).localeCompare(String(b))` for a mixed pair, comparing `"true"`
with `"apple"`, so the code places the string first: the dictionary is
`["apple", true]`.  The conversion is evaluated with the code's own
threshold `ceil (ln 8) = 3` for its 8 rows. -/
theorem boolean_before_string_counterexample :
    rowsMixBS.length = 8 ∧
    (convertToColumnar (Nat.ceil (Real.log (8:ℝ))) rowsMixBS).categories "m" =
      some { dictionary := [Value.str "apple", Value.bool true],
             encoded := [1, 0, 1, 0, 1, 0, 1, 0] } := by
  refine ⟨by decide, ?_⟩
  rw [ceil_log_eight]
  decide

/-! Claim C7. -/

/-- C7 (counterexample): `"01/15/2024"` parses as a valid point in time and
is a common slash-delimited calendar date, so the claim demands `date`; but
the code of lines 585-605 has no recognizer for this format — its patterns
are ISO date, ISO date-time, `Date.prototype.toString` output, and
10-to-13-digit epoch strings — so `inferType` returns `string`. -/
theorem slash_date_infers_string_counterexample :
    jsDateParses "01/15/2024" = true ∧
    slashDateShape ("01/15/2024".toList) = true ∧
    inferType [Value.str "01/15/2024"] = DataType.string := by
  decide

/-- A slash-delimited or day-month-abbreviation-year date matches none of
the four recognizers of lines 589-605. -/
theorem shape_excludes_recognizers (cs : List Char)
    (h : slashDateShape cs = true ∨ dMonYShape cs = true) :
    isoDateShape cs = false ∧ isoDateTimeShape cs = false ∧
      toStringShape cs = false ∧ epochDigitsShape cs = false := by
  rcases h with h | h
  · unfold slashDateShape at h
    split at h
    next a b s1 c d s2 e f g h10 =>
      simp only [Bool.and_eq_true, beq_iff_eq] at h
      obtain ⟨⟨⟨⟨⟨⟨⟨⟨⟨ha, hb⟩, hs1⟩, hc⟩, hd⟩, hs2⟩, he⟩, hf⟩, hg⟩, hh⟩ := h
      subst hs1
      subst hs2
      exact ⟨by simp [isoDateShape], by simp [isoDateTimeShape],
        by simp [toStringShape], by simp [epochDigitsShape]⟩
    next a b c d s2 e f g h9 =>
      simp only [Bool.and_eq_true, beq_iff_eq] at h
      obtain ⟨⟨⟨⟨⟨hhead, hs2⟩, he⟩, hf⟩, hg⟩, hh⟩ := h
      subst hs2
      exact ⟨by simp [isoDateShape], by simp [isoDateTimeShape],
        by simp [toStringShape], by simp [epochDigitsShape]⟩
    next a s1 c s2 e f g h8 =>
      simp only [Bool.and_eq_true, beq_iff_eq] at h
      obtain ⟨⟨⟨⟨⟨⟨⟨ha, hs1⟩, hc⟩, hs2⟩, he⟩, hf⟩, hg⟩, hh⟩ := h
      subst hs1
      subst hs2
      exact ⟨by simp [isoDateShape], by simp [isoDateTimeShape],
        by simp [toStringShape], by simp [epochDigitsShape]⟩
    next =>
      exact absurd h (by simp)
  · unfold dMonYShape at h
    split at h
    next a b s1 c1 c2 c3 s2 y1 y2 y3 y4 =>
      simp only [Bool.and_eq_true, beq_iff_eq] at h
      obtain ⟨⟨⟨⟨⟨⟨⟨⟨ha, hb⟩, hs1⟩, hmon⟩, hs2⟩, hy1⟩, hy2⟩, hy3⟩, hy4⟩ := h
      subst hs1
      subst hs2
      exact ⟨by simp [isoDateShape], by simp [isoDateTimeShape],
        by simp [toStringShape], by simp [epochDigitsShape]⟩
    next a s1 c1 c2 c3 s2 y1 y2 y3 y4 =>
      simp only [Bool.and_eq_true, beq_iff_eq] at h
      obtain ⟨⟨⟨⟨⟨⟨⟨ha, hs1⟩, hmon⟩, hs2⟩, hy1⟩, hy2⟩, hy3⟩, hy4⟩ := h
      subst hs1
      subst hs2
      exact ⟨by simp [isoDateShape], by simp [isoDateTimeShape],
        by simp [toStringShape], by simp [epochDigitsShape]⟩
    next =>
      exact absurd h (by simp)

/-- C7 (amended): a string in slash-delimited calendar-date form (such as
`01/15/2024`) or day-month-abbreviation-year form (such as `15-Jan-2024`)
never matches any of the four recognizers of lines 589-605, so a column
whose sample it is infers as `string`, not `date` — regardless of whether
the host date parser accepts it. -/
theorem slash_dmony_infers_string (s : String)
    (h : slashDateShape s.toList = true ∨ dMonYShape s.toList = true) :
    inferType [Value.str s] = DataType.string := by
  obtain ⟨h1, h2, h3, h4⟩ := shape_excludes_recognizers s.toList h
  show (if jsDateParses s &&
      (isoDateShape s.toList || isoDateTimeShape s.toList || toStringShape s.toList ||
        (epochDigitsShape s.toList && inEpochWindow (digitsToNat s.toList : ℚ)))
    then DataType.date else DataType.string) = DataType.string
  rw [h1, h2, h3, h4]
  simp

/-- Witness for the amended C7: `"15-Jan-2024"` is day-month-abbreviation-
year, and its column infers as `string`. -/
theorem slash_dmony_infers_string_witness :
    inferType [Value.str "15-Jan-2024"] = DataType.string :=
  slash_dmony_infers_string "15-Jan-2024" (Or.inr (by decide))

end SmartGrid
